import Mathlib

/-!
Verification of the fastx-mcp core: FASTA/FASTQ/GenBank transformation and
validation functions, the external-tool bridge, and the in-memory audit log.

Modelling conventions (shallow embedding of the Python source):
* A decoded character string is modelled as a value of type Chars, a list of
  characters.  A text made of several lines is modelled as a list of Chars,
  one element per line (line breaks themselves are not stored); functions of
  the source that receive a whole text and split it internally are modelled
  either on the line list directly (where the split is performed by the
  Biopython line iterator, an external library) or on Chars together with an
  explicit model of the Python split (where the source itself splits).
* Biopython record parsing and serialisation (Bio.SeqIO with the fasta
  format) is an external library; it is modelled concretely below
  (parseFasta, writeFasta) following the behaviour of SimpleFastaParser and
  FastaWriter: a record is a header line starting with the greater-than sign
  followed by sequence lines that are right-stripped, concatenated, and
  cleared of spaces and carriage returns; writing emits the title line and
  the sequence wrapped at 60 characters per line.
* Machine integers of Python are unbounded, so Int and Nat are used directly.
* Fallible operations return Except with an inductive error type whose
  constructors stand for the distinct raise sites of the source.
-/

deriving instance DecidableEq for Except

namespace FastxMCP

/-- Characters of a decoded Python string. -/
abbrev Chars := List Char

/-- The ASCII whitespace characters stripped by the Python strip family
(space, tab, newline, carriage return, vertical tab, form feed). -/
def isWs (c : Char) : Bool :=
  c == ' ' || c == '\t' || c == '\n' || c == '\r' ||
    c == Char.ofNat 11 || c == Char.ofNat 12

/-- Python str.lstrip with no argument. -/
def lstrip (l : Chars) : Chars := l.dropWhile isWs

/-- Python str.rstrip with no argument. -/
def rstrip (l : Chars) : Chars := (l.reverse.dropWhile isWs).reverse

/-- Python str.strip with no argument. -/
def pyStrip (l : Chars) : Chars := rstrip (lstrip l)

/-- First whitespace-separated word of a string: the Python expression
title.split(None, 1)[0], returning the empty string when there is none. -/
def firstWord (l : Chars) : Chars :=
  (l.dropWhile isWs).takeWhile (fun c => !isWs c)

/-- Python str.split with a single-character separator: always returns at
least one piece, and empty pieces are kept. -/
def splitOnChar (sep : Char) : Chars → List Chars
  | [] => [[]]
  | c :: rest =>
    if c == sep then [] :: splitOnChar sep rest
    else
      match splitOnChar sep rest with
      | [] => [[c]]
      | p :: ps => (c :: p) :: ps

/-- The line-break characters recognised by Python str.splitlines. -/
def isLineBreak (c : Char) : Bool :=
  c == '\n' || c == '\r' || c == Char.ofNat 11 || c == Char.ofNat 12 ||
    c == Char.ofNat 28 || c == Char.ofNat 29 || c == Char.ofNat 30 ||
    c == Char.ofNat 133 || c == Char.ofNat 8232 || c == Char.ofNat 8233

/-- Python str.splitlines: splits on every line-break character, treating a
carriage return immediately followed by a newline as a single break, and
produces no trailing empty line. -/
def splitlinesPy : Chars → List Chars
  | [] => []
  | '\r' :: '\n' :: rest => [] :: splitlinesPy rest
  | c :: rest =>
    if isLineBreak c then [] :: splitlinesPy rest
    else
      match splitlinesPy rest with
      | [] => [[c]]
      | p :: ps => (c :: p) :: ps

/-- A sequence record as produced by Bio.SeqIO parsing: identifier,
description (the full header text) and sequence. -/
structure SeqRecord where
  id : Chars
  description : Chars
  seq : Chars
deriving DecidableEq, Repr

/-- A line opens a FASTA record when its first character is the
greater-than sign. -/
def isHeaderLine (l : Chars) : Bool := l.head? == some '>'

/-- Cleaning applied by SimpleFastaParser to each sequence line: right-strip,
then remove every space and carriage return (the join-and-replace step of
the Biopython parser). -/
def cleanSeqLine (l : Chars) : Chars :=
  (rstrip l).filter (fun c => !(c == ' ' || c == '\r'))

/-- Build one SeqRecord from the raw title text (header line without the
leading greater-than sign) and the following sequence lines, as the
Biopython fasta parser does: the description is the right-stripped title,
the identifier its first word, the sequence the cleaned concatenation of
the body lines. -/
def mkRecord (titleRaw : Chars) (body : List Chars) : SeqRecord :=
  ⟨firstWord (rstrip titleRaw), rstrip titleRaw, (body.map cleanSeqLine).flatten⟩

/-- Recursive worker of the fasta parser: title is the raw title of the
currently open record, acc its sequence lines seen so far; a new header
line closes the record and opens the next one. -/
def parseRest (title : Chars) (acc : List Chars) : List Chars → List SeqRecord
  | [] => [mkRecord title acc]
  | l :: ls =>
    if isHeaderLine l then mkRecord title acc :: parseRest l.tail [] ls
    else parseRest title (acc ++ [l]) ls

/-- Parse a line list whose head, if any, is a header line: each record is
a header line together with the run of non-header lines after it. -/
def parseBody : List Chars → List SeqRecord
  | [] => []
  | l :: ls => parseRest l.tail [] ls

/-- Bio.SeqIO.parse with the fasta format, on the line list of the input
text: lines before the first header are skipped, then each header opens a
record. -/
def parseFasta (lines : List Chars) : List SeqRecord :=
  parseBody (lines.dropWhile (fun l => !isHeaderLine l))

/-- Character cleaning applied by the Biopython fasta writer to identifier
and description: newline and carriage return become spaces. -/
def pyClean (c : Char) : Char := if c == '\n' || c == '\r' then ' ' else c

/-- String cleaning of the Biopython fasta writer. -/
def clean (l : Chars) : Chars := l.map pyClean

/-- Title line written by the Biopython fasta writer: the description when
its first word is already the identifier, the identifier alone when the
description is empty, and identifier-space-description otherwise. -/
def titleOf (r : SeqRecord) : Chars :=
  let i := clean r.id
  let d := clean r.description
  if d ≠ [] ∧ firstWord d = i then d
  else if d = [] then i
  else i ++ ' ' :: d

/-- Fuel-indexed worker for the sequence wrapping: each step emits one
60-character line, so a fuel of the sequence length always suffices. -/
def wrap60Go : Nat → Chars → List Chars
  | 0, _ => []
  | n + 1, s => if s = [] then [] else s.take 60 :: wrap60Go n (s.drop 60)

/-- Sequence wrapping of the Biopython fasta writer: 60 characters per
line, no line for an empty sequence. -/
def wrap60 (s : Chars) : List Chars := wrap60Go s.length s

/-- Lines written by the Biopython fasta writer for one record. -/
def writeRecord (r : SeqRecord) : List Chars :=
  ('>' :: titleOf r) :: wrap60 r.seq

/-- Bio.SeqIO.write with the fasta format, as the line list of the output
text. -/
def writeFasta (rs : List SeqRecord) : List Chars :=
  (rs.map writeRecord).flatten

/-- The record obtained by parsing back one written record: the description
becomes the right-stripped written title and the identifier its first
word, while the sequence is unchanged. -/
def reparseRecord (r : SeqRecord) : SeqRecord :=
  ⟨firstWord (rstrip (titleOf r)), rstrip (titleOf r), r.seq⟩

/-- A sequence character that survives the fasta write-parse round trip in
place: not a header opener and not whitespace. -/
def seqSafeChar (c : Char) : Bool := !(c == '>') && !isWs c

/-- All characters of a sequence are round-trip safe. -/
def seqSafe (s : Chars) : Prop := ∀ c ∈ s, seqSafeChar c = true

instance (s : Chars) : Decidable (seqSafe s) := by
  unfold seqSafe; infer_instance

/-! ## src/core/manipulators.py -/

/-- Error values of ManipulationError in src/core/manipulators.py; each
constructor stands for one raise site (the message text of the source is
determined by the constructor and its arguments). -/
inductive ManipulationError where
  | noRecords
  | idNotFound (sequence_id : Chars)
  | invalidCoordinates (start stop : Int) (sequence_length : Nat)
deriving DecidableEq, Repr

/-- The per-character complement used by Bio.Seq.reverse_complement: the
IUPAC ambiguous-DNA complement table of Biopython, extended to lower case,
with every unmapped character left unchanged. -/
def complementChar (c : Char) : Char :=
  match c with
  | 'A' => 'T' | 'C' => 'G' | 'G' => 'C' | 'T' => 'A'
  | 'M' => 'K' | 'R' => 'Y' | 'W' => 'W' | 'S' => 'S'
  | 'Y' => 'R' | 'K' => 'M' | 'V' => 'B' | 'H' => 'D'
  | 'D' => 'H' | 'B' => 'V' | 'X' => 'X' | 'N' => 'N'
  | 'a' => 't' | 'c' => 'g' | 'g' => 'c' | 't' => 'a'
  | 'm' => 'k' | 'r' => 'y' | 'w' => 'w' | 's' => 's'
  | 'y' => 'r' | 'k' => 'm' | 'v' => 'b' | 'h' => 'd'
  | 'd' => 'h' | 'b' => 'v' | 'x' => 'x' | 'n' => 'n'
  | other => other

/-- Bio.Seq.reverse_complement on the character list of a sequence. -/
def reverseComplement (s : Chars) : Chars := (s.map complementChar).reverse

/-- The SeqRecord built for one input record inside
reverse_complement_fasta: reverse-complemented sequence, identifier with
_rc appended, description with a reverse-complement marker appended. -/
def rcRecord (r : SeqRecord) : SeqRecord :=
  ⟨r.id ++ "_rc".data,
   r.description ++ " (reverse complement)".data,
   reverseComplement r.seq⟩

/-- The record list written by reverse_complement_fasta. -/
def rcRecords (rs : List SeqRecord) : List SeqRecord := rs.map rcRecord

/-- reverse_complement_fasta of src/core/manipulators.py on the line list
of the (already decoded) input string.  The base64 branch of the source
only decodes the input before this point and is outside the model; per
record the source wraps library failures, but the modelled
reverse_complement is total, so that raise site is unreachable. -/
def reverse_complement_fasta (input : List Chars) :
    Except ManipulationError (List Chars) :=
  let records := parseFasta input
  if records.isEmpty then .error .noRecords
  else .ok (writeFasta (rcRecords records))

/-- extract_subsequence of src/core/manipulators.py on the line list of the
(already decoded) input string.  The Python parameter named end is called
stop here because end is a Lean keyword.  The Python slice
seq[start:stop], reached only with 0 <= start < stop <= length, is drop
then take; the interpolated identifier and description use the decimal
rendering of the two integers, as the Python f-string does. -/
def extract_subsequence (input : List Chars) (sequence_id : Chars)
    (start stop : Int) : Except ManipulationError (List Chars) :=
  let records := parseFasta input
  if records.isEmpty then .error .noRecords
  else
    match records.find? (fun r => r.id == sequence_id) with
    | none => .error (.idNotFound sequence_id)
    | some target =>
      if start < 0 ∨ stop > (target.seq.length : Int) ∨ start ≥ stop then
        .error (.invalidCoordinates start stop target.seq.length)
      else
        let subseq := (target.seq.drop start.toNat).take (stop.toNat - start.toNat)
        let subseqRecord : SeqRecord :=
          ⟨sequence_id ++ ("_subseq_" ++ toString start ++ "_" ++ toString stop).data,
           target.description ++
             (" (subsequence " ++ toString start ++ "-" ++ toString stop ++ ")").data,
           subseq⟩
        .ok (writeFasta [subseqRecord])

/-- The unambiguous nucleotide symbols, both cases. -/
def nucleotideChars : Chars := "ACGTacgt".data

/-! ## src/core/converters.py -/

/-- Error values of ConversionError in src/core/converters.py. -/
inductive ConversionError where
  | noRecords
deriving DecidableEq, Repr

/-- Result of get_conversion_summary. -/
structure ConversionSummary where
  record_count : Nat
  total_length : Nat
  record_ids : List Chars
deriving DecidableEq, Repr

/-- genbank_to_fasta of src/core/converters.py, modelled from the record
list produced by the Biopython GenBank parser (an external library): with
no record it fails, otherwise it writes all records in order in fasta
format. -/
def genbank_to_fasta (records : List SeqRecord) :
    Except ConversionError (List Chars) :=
  if records.isEmpty then .error .noRecords
  else .ok (writeFasta records)

/-- get_conversion_summary of src/core/converters.py, modelled from the
record list produced by the Biopython GenBank parser: the zero summary on
no records, otherwise count, summed lengths and ordered identifiers. -/
def get_conversion_summary (records : List SeqRecord) : ConversionSummary :=
  if records.isEmpty then ⟨0, 0, []⟩
  else
    ⟨records.length,
     (records.map (fun r => r.seq.length)).sum,
     records.map (fun r => r.id)⟩

/-! ## src/core/seqkit_wrapper.py -/

/-- The heterogeneous return value of parse_seqkit_tabular_output: a single
Python dict or a list of dicts.  A dict built by zipping the header with a
value row is modelled as the association list of the zip (the source
builds dict(zip(header, values)), which also truncates to the shorter of
the two). -/
inductive TabularResult where
  | dict (record : List (Chars × Chars))
  | list (records : List (List (Chars × Chars)))
deriving DecidableEq, Repr

/-- The line preprocessing of parse_seqkit_tabular_output: strip the whole
text, split into lines, strip each line, keep the non-empty ones. -/
def cleanedTabLines (tabular_text : Chars) : List Chars :=
  ((splitlinesPy (pyStrip tabular_text)).map pyStrip).filter (fun l => !l.isEmpty)

/-- Python line.split with separator tab. -/
def splitTab (l : Chars) : List Chars := splitOnChar '\t' l

/-- parse_seqkit_tabular_output of src/core/seqkit_wrapper.py: fewer than
two kept lines give the empty dict, the first kept line is the
tab-separated header, each following line is tab-split and zipped with the
header, and a single data row is returned unwrapped. -/
def parse_seqkit_tabular_output (tabular_text : Chars) : TabularResult :=
  match cleanedTabLines tabular_text with
  | [] => .dict []
  | [_] => .dict []
  | h :: t =>
    let header := splitTab h
    let records := t.map (fun line => header.zip (splitTab line))
    match records with
    | [r] => .dict r
    | rs => .list rs

/-- Error values of SeqkitError in src/core/seqkit_wrapper.py. -/
inductive SeqkitError where
  | commandFailed (stderr : Chars)
  | timedOut
  | wrappedUnexpected
deriving DecidableEq, Repr

/-- Outcome of one subprocess.run invocation of the external seqkit
binary, the only nondeterministic step of the bridge: normal completion
with exit code and captured streams, expiry of the timeout, or any other
unexpected exception. -/
inductive ProcOutcome where
  | completed (returncode : Int) (stdout : Chars) (stderr : Chars)
  | timedOut
  | unexpectedError
deriving DecidableEq, Repr

/-- Value returned by run_seqkit_stats: the parsed tabular data for the
json output format, or the stripped raw stdout wrapped in a one-key dict
for the text format. -/
inductive StatsResult where
  | parsed (data : TabularResult)
  | rawOutput (output : Chars)
deriving DecidableEq, Repr

/-- The internal try body of run_seqkit_stats, between temp-file creation
and the finally block: run the subprocess, fail on nonzero exit, otherwise
parse or wrap stdout.  Exceptions are the Except error channel; the
parse-failure raise site of the source is unreachable because the modelled
parser is total.  The temp-file state is a Bool (does the file still
exist) threaded explicitly; the body never touches the file state. -/
def seqkitStatsBody (outcome : ProcOutcome) (output_json : Bool) :
    Except SeqkitError StatsResult :=
  match outcome with
  | .timedOut => .error .timedOut
  | .unexpectedError => .error .wrappedUnexpected
  | .completed returncode stdout stderr =>
    if returncode ≠ 0 then .error (.commandFailed stderr)
    else if output_json then .ok (.parsed (parse_seqkit_tabular_output stdout))
    else .ok (.rawOutput (pyStrip stdout))

/-- The Python try-finally: the body result is kept and the finally action
runs on the resource state on every exit path, normal or exceptional. -/
def tryFinally {α ε : Type} (body : Except ε α) (fin : Bool → Bool)
    (tempExists : Bool) : Except ε α × Bool :=
  (body, fin tempExists)

/-- The finally block shared by run_seqkit_stats and run_seqkit_command:
delete the temp file if it still exists. -/
def cleanupTemp (tempExists : Bool) : Bool :=
  if tempExists then false else tempExists

/-- run_seqkit_stats of src/core/seqkit_wrapper.py, modelled from the
point where the temporary file has just been created (state true);
invoking seqkit is the external outcome.  Returns the result together with
the final temp-file state.  The outer except clause re-raises SeqkitError
unchanged and wraps the timeout and any unexpected exception. -/
def run_seqkit_stats (fastq_content : Chars) (output_json : Bool)
    (outcome : ProcOutcome) : Except SeqkitError StatsResult × Bool :=
  let tempExists := true
  let step := tryFinally (seqkitStatsBody outcome output_json) cleanupTemp tempExists
  (step.1, step.2)

/-- The internal try body of run_seqkit_command: run the subprocess, fail
on nonzero exit, otherwise return raw stdout. -/
def seqkitCommandBody (outcome : ProcOutcome) : Except SeqkitError Chars :=
  match outcome with
  | .timedOut => .error .timedOut
  | .unexpectedError => .error .wrappedUnexpected
  | .completed returncode stdout stderr =>
    if returncode ≠ 0 then .error (.commandFailed stderr)
    else .ok stdout

/-- run_seqkit_command of src/core/seqkit_wrapper.py, modelled from the
point where the temporary input file has just been created, like
run_seqkit_stats. -/
def run_seqkit_command (fastq_content : Chars) (command : Chars)
    (args : List Chars) (outcome : ProcOutcome) :
    Except SeqkitError Chars × Bool :=
  let tempExists := true
  let step := tryFinally (seqkitCommandBody outcome) cleanupTemp tempExists
  (step.1, step.2)

/-- validate_seqkit_installation of src/core/seqkit_wrapper.py: true
exactly when the probe completes with exit code zero; every exception
(timeout included) is caught and yields false. -/
def validate_seqkit_installation (outcome : ProcOutcome) : Bool :=
  match outcome with
  | .completed returncode _ _ => returncode == 0
  | .timedOut => false
  | .unexpectedError => false

/-! ## src/utils/validators.py -/

/-- Error values of ValidationError raised by validate_fastq_format; each
constructor stands for one raise site. -/
inductive ValidationError where
  | emptyContent
  | tooFewLines
  | incompleteRecords
  | badHeader (line : Nat)
  | badPlusLine (line : Nat)
  | lengthMismatch (line : Nat)
  | invalidChars (line : Nat)
deriving DecidableEq, Repr

/-- The characters accepted by the sequence regex of the validators:
upper-case IUPAC nucleotide codes and the gap dash. -/
def isIUPACChar (c : Char) : Bool :=
  c == 'A' || c == 'T' || c == 'C' || c == 'G' || c == 'R' || c == 'Y' ||
    c == 'S' || c == 'W' || c == 'K' || c == 'M' || c == 'B' || c == 'D' ||
    c == 'H' || c == 'V' || c == 'N' || c == '-'

/-- The regex check of the source on a sequence line: at least one
character and every character, upper-cased, in the IUPAC set.  Char.toUpper
models str.upper on the ASCII range (exotic Unicode case mappings are out
of scope). -/
def isIUPACSeq (s : Chars) : Bool :=
  !s.isEmpty && s.all (fun c => isIUPACChar c.toUpper)

/-- Group the line list into consecutive 4-line records, with the index of
the first line of each record; a trailing group of fewer than 4 lines is
dropped (the caller has already checked divisibility by 4). -/
def fastqChunks : Nat → List Chars → List (Nat × Chars × Chars × Chars × Chars)
  | i, a :: b :: c :: d :: rest => (i, a, b, c, d) :: fastqChunks (i + 4) rest
  | _, _ => []

/-- The in-order checks of one 4-line record of validate_fastq_format:
header prefix, separator prefix, stripped length comparison, and the regex
on the stripped sequence; the first failing check is the raised error. -/
def checkFastqRecord (i : Nat) (a b c d : Chars) : Option ValidationError :=
  if !(a.head? == some '@') then some (.badHeader (i + 1))
  else if !(c.head? == some '+') then some (.badPlusLine (i + 3))
  else
    let s := pyStrip b
    let q := pyStrip d
    if s.length ≠ q.length then some (.lengthMismatch (i + 1))
    else if !isIUPACSeq s then some (.invalidChars (i + 2))
    else none

/-- validate_fastq_format of src/utils/validators.py: strip the content,
fail on empty, split on newline, fail when fewer than 4 lines or when the
line count is not a multiple of 4, then check each 4-line record in order
and raise at the first failure; on success return true. -/
def validate_fastq_format (content : Chars) : Except ValidationError Bool :=
  if (pyStrip content).isEmpty then .error .emptyContent
  else
    let lines := splitOnChar '\n' (pyStrip content)
    if lines.length < 4 then .error .tooFewLines
    else if lines.length % 4 ≠ 0 then .error .incompleteRecords
    else
      match (fastqChunks 0 lines).findSome?
          (fun g => checkFastqRecord g.1 g.2.1 g.2.2.1 g.2.2.2.1 g.2.2.2.2) with
      | some e => .error e
      | none => .ok true

/-! ## src/utils/logging.py -/

/-- One audit entry of InMemoryLogger.  The fields not involved in the
verified claims (parameters, execution time, result summary) are carried
as an opaque payload so that entries stay plain data. -/
structure OperationLog where
  timestamp : Chars
  operation : Chars
  endpoint : Chars
  success : Bool
  error_message : Option Chars
deriving DecidableEq, Repr

/-- The mutable state of InMemoryLogger: retained entries and the
configured capacity (Python default 1000).  The capacity is a natural
number; the source type is a Python int but the class is only instantiated
with positive capacities. -/
structure InMemoryLogger where
  logs : List OperationLog
  max_logs : Nat
deriving DecidableEq, Repr

/-- The Python slice logs[-n:]: the last n elements, except that a zero n
denotes the whole list (negative zero slicing). -/
def takeLastPy {α : Type} (l : List α) (n : Nat) : List α :=
  if n = 0 then l else l.drop (l.length - n)

/-- InMemoryLogger.log_operation: append the new entry under the lock and,
when the retained count exceeds the capacity, keep only the slice
logs[-max_logs:].  The lock makes the update atomic, which is what a pure
state transition models; timestamp construction is external input carried
by the entry itself. -/
def log_operation (st : InMemoryLogger) (entry : OperationLog) : InMemoryLogger :=
  let logs := st.logs ++ [entry]
  if logs.length > st.max_logs then
    { st with logs := takeLastPy logs st.max_logs }
  else
    { st with logs := logs }

/-- Lexicographic comparison of character lists, the order Python uses to
compare the timestamp strings in the sort of get_logs. -/
def lexLe : Chars → Chars → Bool
  | [], _ => true
  | _ :: _, [] => false
  | a :: as, b :: bs => if a < b then true else if b < a then false else lexLe as bs

/-- Newest-first order on entries: timestamp greater or equal. -/
def tsGe (a b : OperationLog) : Prop := lexLe b.timestamp a.timestamp = true

instance : DecidableRel tsGe := fun a b => by
  unfold tsGe; infer_instance

/-- The Python list.sort with key timestamp and reverse true: a stable
descending sort.  Stable sorting is uniquely determined by the order and
the input, so the insertion sort here returns exactly the list the Python
sort produces. -/
def sortByTimestampDesc (l : List OperationLog) : List OperationLog :=
  List.insertionSort tsGe l

/-- The filter phase of get_logs: the operation filter runs when the
argument is present and truthy (a non-empty string), the success filter
when the argument is present. -/
def filteredLogs (st : InMemoryLogger) (operation : Option Chars)
    (success_only : Option Bool) : List OperationLog :=
  let fl := st.logs
  let fl := match operation with
    | some op => if op ≠ [] then fl.filter (fun l => l.operation == op) else fl
    | none => fl
  match success_only with
  | some b => fl.filter (fun l => l.success == b)
  | none => fl

/-- The Python slice l[:k] for an int k: the first k elements when k is
nonnegative, all but the last -k elements when k is negative. -/
def pySliceTo {α : Type} (l : List α) (k : Int) : List α :=
  if 0 ≤ k then l.take k.toNat else l.take (l.length - (-k).toNat)

/-- InMemoryLogger.get_logs: copy under the lock, filter by operation and
success, sort newest first by timestamp, then apply the limit when it is
present and truthy (nonzero).  The final asdict marshalling of the source
is identity on the modelled fields. -/
def get_logs (st : InMemoryLogger) (limit : Option Int)
    (operation : Option Chars) (success_only : Option Bool) :
    List OperationLog :=
  let fl := sortByTimestampDesc (filteredLogs st operation success_only)
  match limit with
  | some k => if k ≠ 0 then pySliceTo fl k else fl
  | none => fl

/-! ## Helper lemmas -/

theorem takeWhile_append_all {α : Type} (p : α → Bool) (xs ys : List α)
    (h : ∀ x ∈ xs, p x = true) :
    (xs ++ ys).takeWhile p = xs ++ ys.takeWhile p := by
  induction xs with
  | nil => simp
  | cons a t ih =>
    have ha : p a = true := h a (by simp)
    simp only [List.cons_append, List.takeWhile_cons, ha, if_true]
    rw [ih (fun x hx => h x (by simp [hx]))]

theorem dropWhile_append_all {α : Type} (p : α → Bool) (xs ys : List α)
    (h : ∀ x ∈ xs, p x = true) :
    (xs ++ ys).dropWhile p = ys.dropWhile p := by
  induction xs with
  | nil => simp
  | cons a t ih =>
    have ha : p a = true := h a (by simp)
    simp only [List.cons_append, List.dropWhile_cons, ha, if_true]
    exact ih (fun x hx => h x (by simp [hx]))

theorem takeWhile_eq_self_of_all {α : Type} (p : α → Bool) (xs : List α)
    (h : ∀ x ∈ xs, p x = true) : xs.takeWhile p = xs := by
  induction xs with
  | nil => simp
  | cons a t ih =>
    have ha : p a = true := h a (by simp)
    simp only [List.takeWhile_cons, ha, if_true]
    rw [ih (fun x hx => h x (by simp [hx]))]

theorem dropWhile_eq_nil_of_all {α : Type} (p : α → Bool) (xs : List α)
    (h : ∀ x ∈ xs, p x = true) : xs.dropWhile p = [] := by
  induction xs with
  | nil => simp
  | cons a t ih =>
    have ha : p a = true := h a (by simp)
    simp only [List.dropWhile_cons, ha, if_true]
    exact ih (fun x hx => h x (by simp [hx]))

theorem rstrip_of_all_nonws (l : Chars) (h : ∀ c ∈ l, isWs c = false) :
    rstrip l = l := by
  unfold rstrip
  rw [List.dropWhile_eq_self_iff.2, List.reverse_reverse]
  intro hl
  have hlen : 0 < l.length := by simpa using hl
  have hmem : l[l.length - 1] ∈ l := l.getElem_mem (by omega)
  simp [h _ hmem]

theorem rstrip_append_last_nonws (l : Chars) (c : Char) (h : isWs c = false) :
    rstrip (l ++ [c]) = l ++ [c] := by
  unfold rstrip
  simp [List.dropWhile_cons, h]

theorem rstrip_decomposition (l : Chars) :
    ∃ t, l = rstrip l ++ t ∧ ∀ c ∈ t, isWs c = true := by
  refine ⟨(l.reverse.takeWhile isWs).reverse, ?_, ?_⟩
  · unfold rstrip
    rw [← List.reverse_append, List.takeWhile_append_dropWhile, List.reverse_reverse]
  · intro c hc
    rw [List.mem_reverse] at hc
    exact List.mem_takeWhile_imp hc

theorem firstWord_all_nonws (l : Chars) : ∀ c ∈ firstWord l, isWs c = false := by
  intro c hc
  have := List.mem_takeWhile_imp hc
  simpa using this

theorem takeWhile_nonws_append_ws (xs t : Chars) (ht : ∀ c ∈ t, isWs c = true) :
    (xs ++ t).takeWhile (fun c => !isWs c) = xs.takeWhile (fun c => !isWs c) := by
  induction xs with
  | nil =>
    simp only [List.nil_append, List.takeWhile_nil]
    cases t with
    | nil => simp
    | cons a t' => simp [List.takeWhile_cons, ht a (by simp)]
  | cons a xs' ih =>
    by_cases ha : isWs a
    · simp [List.takeWhile_cons, ha]
    · simp only [List.cons_append, List.takeWhile_cons, ha]
      simp only [Bool.not_false, if_true]
      rw [ih]

theorem firstWord_append_ws (xs t : Chars) (ht : ∀ c ∈ t, isWs c = true) :
    firstWord (xs ++ t) = firstWord xs := by
  induction xs with
  | nil =>
    simp only [List.nil_append]
    unfold firstWord
    rw [dropWhile_eq_nil_of_all isWs t ht]
    simp
  | cons a xs' ih =>
    unfold firstWord
    by_cases ha : isWs a
    · simp only [List.cons_append, List.dropWhile_cons, ha, if_true]
      exact ih
    · have ha' : isWs a = false := by simpa using ha
      simp only [List.cons_append, List.dropWhile_cons, List.takeWhile_cons, ha',
        Bool.false_eq_true, Bool.not_false, if_true, if_false]
      rw [takeWhile_nonws_append_ws xs' t ht]

theorem firstWord_rstrip (l : Chars) : firstWord (rstrip l) = firstWord l := by
  obtain ⟨t, hl, ht⟩ := rstrip_decomposition l
  conv_rhs => rw [hl]
  rw [firstWord_append_ws _ _ ht]

theorem firstWord_of_all_nonws (w : Chars) (h : ∀ c ∈ w, isWs c = false) :
    firstWord w = w := by
  unfold firstWord
  rw [List.dropWhile_eq_self_iff.2, takeWhile_eq_self_of_all]
  · intro c hc; simp [h c hc]
  · intro hw
    simp only [List.get_eq_getElem]
    have : w[0] ∈ w := List.getElem_mem hw
    simp [h _ this]

theorem firstWord_append_sep (w d : Chars) (hne : w ≠ [])
    (h : ∀ c ∈ w, isWs c = false) :
    firstWord (w ++ ' ' :: d) = w := by
  unfold firstWord
  have hdrop : (w ++ ' ' :: d).dropWhile isWs = w ++ ' ' :: d := by
    rw [List.dropWhile_eq_self_iff.2]
    intro hl
    simp only [List.get_eq_getElem]
    have h0 : (w ++ ' ' :: d)[0] ∈ w := by
      cases w with
      | nil => exact absurd rfl hne
      | cons a t => simp
    simp [h _ h0]
  rw [hdrop, takeWhile_append_all _ _ _ (by intro x hx; simp [h x hx])]
  simp [List.takeWhile_cons, isWs]

/-! ## Round-trip lemmas: parsing back a written fasta text -/

theorem wrap60Go_congr (n : Nat) : ∀ (m : Nat) (s : Chars),
    s.length ≤ n → s.length ≤ m → wrap60Go n s = wrap60Go m s := by
  induction n with
  | zero =>
    intro m s hn _
    have : s = [] := List.eq_nil_of_length_eq_zero (Nat.le_zero.1 hn)
    subst this
    cases m <;> simp [wrap60Go]
  | succ n ih =>
    intro m s hn hm
    by_cases hs : s = []
    · subst hs
      cases m <;> simp [wrap60Go]
    · have hpos : 0 < s.length := List.length_pos.2 hs
      obtain ⟨m', rfl⟩ : ∃ m', m = m' + 1 := ⟨m - 1, by omega⟩
      simp only [wrap60Go, if_neg hs]
      rw [ih m' (s.drop 60) (by simp; omega) (by simp; omega)]

theorem wrap60_unfold (s : Chars) :
    wrap60 s = if s = [] then [] else s.take 60 :: wrap60 (s.drop 60) := by
  unfold wrap60
  by_cases hs : s = []
  · subst hs; simp [wrap60Go]
  · have hpos : 0 < s.length := List.length_pos.2 hs
    obtain ⟨n, hn⟩ : ∃ n, s.length = n + 1 := ⟨s.length - 1, by omega⟩
    rw [hn]
    simp only [wrap60Go, if_neg hs]
    rw [wrap60Go_congr n ((s.drop 60).length) (s.drop 60) (by simp; omega) le_rfl]

theorem wrap60_flatten (s : Chars) : (wrap60 s).flatten = s := by
  rw [wrap60_unfold]
  by_cases hs : s = []
  · subst hs; simp
  · rw [if_neg hs]
    simp only [List.flatten_cons]
    rw [wrap60_flatten (s.drop 60), List.take_append_drop]
termination_by s.length
decreasing_by
  have hpos : 0 < s.length := List.length_pos.2 hs
  simp
  omega

theorem wrap60_mem (s : Chars) (l : Chars) (hl : l ∈ wrap60 s) :
    l ≠ [] ∧ ∀ c ∈ l, c ∈ s := by
  rw [wrap60_unfold] at hl
  by_cases hs : s = []
  · subst hs; simp at hl
  · rw [if_neg hs] at hl
    rcases List.mem_cons.1 hl with h | h
    · subst h
      constructor
      · intro htake
        exact hs (by simpa using List.take_eq_nil_iff.1 htake)
      · intro c hc
        exact List.mem_of_mem_take hc
    · obtain ⟨h1, h2⟩ := wrap60_mem (s.drop 60) l h
      exact ⟨h1, fun c hc => List.mem_of_mem_drop (h2 c hc)⟩
termination_by s.length
decreasing_by
  have hpos : 0 < s.length := List.length_pos.2 hs
  simp
  omega

theorem cleanSeqLine_of_safe (l : Chars) (h : ∀ c ∈ l, seqSafeChar c = true) :
    cleanSeqLine l = l := by
  unfold cleanSeqLine
  have hws : ∀ c ∈ l, isWs c = false := by
    intro c hc
    have := h c hc
    unfold seqSafeChar at this
    simp only [Bool.and_eq_true, Bool.not_eq_true'] at this
    exact this.2
  rw [rstrip_of_all_nonws l hws, List.filter_eq_self.2]
  intro c hc
  have hcws := hws c hc
  have h2 : (c == ' ') = false := by
    by_cases hc' : c = ' '
    · subst hc'; simp [isWs] at hcws
    · simp [hc']
  have h3 : (c == '\r') = false := by
    by_cases hc' : c = '\r'
    · subst hc'; simp [isWs] at hcws
    · simp [hc']
  simp [h2, h3]

theorem wrap60_not_header (s : Chars) (hs : seqSafe s) (l : Chars)
    (hl : l ∈ wrap60 s) : isHeaderLine l = false := by
  obtain ⟨hne, hsub⟩ := wrap60_mem s l hl
  cases l with
  | nil => exact absurd rfl hne
  | cons c t =>
    have hc : c ∈ s := hsub c (by simp)
    have := hs c hc
    unfold seqSafeChar at this
    simp only [Bool.and_eq_true, Bool.not_eq_true'] at this
    simp [isHeaderLine, this.1]

theorem writeFasta_takeWhile_nonheader (rs : List SeqRecord) :
    (writeFasta rs).takeWhile (fun x => !isHeaderLine x) = [] := by
  cases rs with
  | nil => simp [writeFasta]
  | cons r rest =>
    simp [writeFasta, writeRecord, List.takeWhile_cons, isHeaderLine]

theorem writeFasta_dropWhile_nonheader (rs : List SeqRecord) :
    (writeFasta rs).dropWhile (fun x => !isHeaderLine x) = writeFasta rs := by
  cases rs with
  | nil => simp [writeFasta]
  | cons r rest =>
    simp [writeFasta, writeRecord, List.dropWhile_cons, isHeaderLine]

theorem parseRest_eq_span (ls : List Chars) : ∀ (title : Chars) (acc : List Chars),
    parseRest title acc ls =
      mkRecord title (acc ++ ls.takeWhile (fun x => !isHeaderLine x)) ::
        parseBody (ls.dropWhile (fun x => !isHeaderLine x)) := by
  induction ls with
  | nil =>
    intro title acc
    simp [parseRest, parseBody]
  | cons l ls ih =>
    intro title acc
    by_cases hl : isHeaderLine l
    · simp only [parseRest, if_pos hl, List.takeWhile_cons, List.dropWhile_cons, hl,
        Bool.not_true, Bool.false_eq_true, if_false, List.append_nil, parseBody]
      simp
    · have hl' : isHeaderLine l = false := by simpa using hl
      simp only [parseRest, hl', Bool.false_eq_true, if_false, List.takeWhile_cons,
        List.dropWhile_cons, Bool.not_false, if_true]
      rw [ih title (acc ++ [l])]
      simp

theorem parseBody_cons (l : Chars) (ls : List Chars) :
    parseBody (l :: ls) =
      mkRecord l.tail (ls.takeWhile (fun x => !isHeaderLine x)) ::
        parseBody (ls.dropWhile (fun x => !isHeaderLine x)) := by
  show parseRest l.tail [] ls = _
  rw [parseRest_eq_span ls l.tail []]
  simp

theorem parseBody_writeFasta (rs : List SeqRecord)
    (h : ∀ r ∈ rs, seqSafe r.seq) :
    parseBody (writeFasta rs) = rs.map reparseRecord := by
  induction rs with
  | nil => simp [writeFasta, parseBody]
  | cons r rest ih =>
    have hsafe : seqSafe r.seq := h r (by simp)
    have hbody : ∀ x ∈ wrap60 r.seq, (fun x => !isHeaderLine x) x = true := by
      intro x hx
      simp [wrap60_not_header r.seq hsafe x hx]
    have hwf : writeFasta (r :: rest) =
        ('>' :: titleOf r) :: (wrap60 r.seq ++ writeFasta rest) := by
      simp [writeFasta, writeRecord]
    rw [hwf, parseBody_cons]
    have htake : (wrap60 r.seq ++ writeFasta rest).takeWhile
        (fun x => !isHeaderLine x) = wrap60 r.seq := by
      rw [takeWhile_append_all _ _ _ hbody, writeFasta_takeWhile_nonheader,
        List.append_nil]
    have hdrop : (wrap60 r.seq ++ writeFasta rest).dropWhile
        (fun x => !isHeaderLine x) = writeFasta rest := by
      rw [dropWhile_append_all _ _ _ hbody, writeFasta_dropWhile_nonheader]
    rw [htake, hdrop, ih (fun x hx => h x (by simp [hx]))]
    simp only [List.map_cons, List.cons.injEq, and_true]
    unfold mkRecord reparseRecord
    have hseq : ((wrap60 r.seq).map cleanSeqLine).flatten = r.seq := by
      have hmapeq : (wrap60 r.seq).map cleanSeqLine = wrap60 r.seq := by
        have := List.map_congr_left (l := wrap60 r.seq) (f := cleanSeqLine) (g := id)
          (fun x hx => cleanSeqLine_of_safe x
            (fun c hc => hsafe c ((wrap60_mem r.seq x hx).2 c hc)))
        simpa using this
      rw [hmapeq, wrap60_flatten]
    simp [hseq]

theorem parseFasta_writeFasta (rs : List SeqRecord)
    (h : ∀ r ∈ rs, seqSafe r.seq) :
    parseFasta (writeFasta rs) = rs.map reparseRecord := by
  unfold parseFasta
  rw [writeFasta_dropWhile_nonheader, parseBody_writeFasta rs h]

/-! ## Identifier and title lemmas -/

theorem clean_of_all_nonws (l : Chars) (h : ∀ c ∈ l, isWs c = false) :
    clean l = l := by
  unfold clean
  have := List.map_congr_left (l := l) (f := pyClean) (g := id) ?_
  · simpa using this
  · intro c hc
    have hcws := h c hc
    unfold pyClean
    have h2 : (c == '\n') = false := by
      by_cases hc' : c = '\n'
      · subst hc'; simp [isWs] at hcws
      · simp [hc']
    have h3 : (c == '\r') = false := by
      by_cases hc' : c = '\r'
      · subst hc'; simp [isWs] at hcws
      · simp [hc']
    simp [h2, h3]

theorem reparseRecord_id (r : SeqRecord) (hne : r.id ≠ [])
    (hws : ∀ c ∈ r.id, isWs c = false) : (reparseRecord r).id = r.id := by
  unfold reparseRecord
  simp only
  rw [firstWord_rstrip]
  unfold titleOf
  simp only
  have hclean : clean r.id = r.id := clean_of_all_nonws _ hws
  by_cases h1 : clean r.description ≠ [] ∧ firstWord (clean r.description) = clean r.id
  · rw [if_pos h1, h1.2, hclean]
  · rw [if_neg h1]
    by_cases h2 : clean r.description = []
    · rw [if_pos h2, hclean, firstWord_of_all_nonws _ hws]
    · rw [if_neg h2, hclean, firstWord_append_sep _ _ hne hws]

theorem reparseRecord_seq (r : SeqRecord) : (reparseRecord r).seq = r.seq := rfl

theorem parseRest_id_nonws (ls : List Chars) :
    ∀ (title : Chars) (acc : List Chars), ∀ r ∈ parseRest title acc ls,
      ∀ c ∈ r.id, isWs c = false := by
  induction ls with
  | nil =>
    intro title acc r hr
    simp only [parseRest, List.mem_singleton] at hr
    subst hr
    exact firstWord_all_nonws _
  | cons l ls ih =>
    intro title acc r hr
    simp only [parseRest] at hr
    by_cases hl : isHeaderLine l
    · rw [if_pos hl] at hr
      rcases List.mem_cons.1 hr with h | h
      · subst h
        exact firstWord_all_nonws _
      · exact ih l.tail [] r h
    · rw [if_neg hl] at hr
      exact ih title (acc ++ [l]) r hr

theorem parseFasta_id_nonws (lines : List Chars) :
    ∀ r ∈ parseFasta lines, ∀ c ∈ r.id, isWs c = false := by
  unfold parseFasta parseBody
  split
  · simp
  · exact parseRest_id_nonws _ _ _

theorem find_eq_some_of_unique {α : Type} (p : α → Bool) (l : List α) (a : α)
    (hmem : a ∈ l) (hpa : p a = true) (huniq : ∀ b ∈ l, p b = true → b = a) :
    l.find? p = some a := by
  induction l with
  | nil => simp at hmem
  | cons x t ih =>
    by_cases hx : p x = true
    · have : x = a := huniq x (by simp) hx
      subst this
      simp [List.find?_cons, hx]
    · have hxa : a ≠ x := fun h => by subst h; exact hx hpa
      rcases List.mem_cons.1 hmem with h | h
      · exact absurd h hxa
      · have hx' : p x = false := by simpa using hx
        simp only [List.find?_cons, hx']
        exact ih h (fun b hb hpb => huniq b (by simp [hb]) hpb)

/-! ## Nucleotide alphabet lemmas -/

theorem mem_nucleotide_elim (c : Char) (h : c ∈ nucleotideChars) :
    c = 'A' ∨ c = 'C' ∨ c = 'G' ∨ c = 'T' ∨
      c = 'a' ∨ c = 'c' ∨ c = 'g' ∨ c = 't' := by
  have he : nucleotideChars = ['A', 'C', 'G', 'T', 'a', 'c', 'g', 't'] := rfl
  rw [he] at h
  simpa using h

theorem mem_nucleotide_safe (c : Char) (h : c ∈ nucleotideChars) :
    seqSafeChar c = true := by
  rcases mem_nucleotide_elim c h with rfl | rfl | rfl | rfl | rfl | rfl | rfl | rfl <;>
    decide

theorem complementChar_mem (c : Char) (h : c ∈ nucleotideChars) :
    complementChar c ∈ nucleotideChars := by
  rcases mem_nucleotide_elim c h with rfl | rfl | rfl | rfl | rfl | rfl | rfl | rfl <;>
    decide

theorem complementChar_involutive (c : Char) (h : c ∈ nucleotideChars) :
    complementChar (complementChar c) = c := by
  rcases mem_nucleotide_elim c h with rfl | rfl | rfl | rfl | rfl | rfl | rfl | rfl <;>
    decide

theorem reverseComplement_mem (s : Chars) (h : ∀ c ∈ s, c ∈ nucleotideChars) :
    ∀ c ∈ reverseComplement s, c ∈ nucleotideChars := by
  intro c hc
  unfold reverseComplement at hc
  rw [List.mem_reverse] at hc
  obtain ⟨a, ha, rfl⟩ := List.mem_map.1 hc
  exact complementChar_mem a (h a ha)

theorem reverseComplement_involutive (s : Chars)
    (h : ∀ c ∈ s, c ∈ nucleotideChars) :
    reverseComplement (reverseComplement s) = s := by
  unfold reverseComplement
  rw [List.map_reverse, List.reverse_reverse, List.map_map]
  have := List.map_congr_left (l := s) (f := complementChar ∘ complementChar)
    (g := id) (fun c hc => complementChar_involutive c (h c hc))
  simpa using this

theorem rcRecord_id_nonws (r : SeqRecord) (h : ∀ c ∈ r.id, isWs c = false) :
    ∀ c ∈ (rcRecord r).id, isWs c = false := by
  intro c hc
  unfold rcRecord at hc
  simp only at hc
  rcases List.mem_append.1 hc with h1 | h1
  · exact h c h1
  · simp only [List.mem_cons, List.not_mem_nil, or_false] at h1
    rcases h1 with rfl | rfl | rfl <;> decide

theorem rcRecord_id_ne_nil (r : SeqRecord) : (rcRecord r).id ≠ [] := by
  unfold rcRecord
  simp

/-! ## Claim theorems -/

/-- C6: every invocation of run_seqkit_stats and of run_seqkit_command that
reaches the point where the temporary file has been created deletes the
temporary file before returning or propagating, on every exit path of the
external invocation: success, non-zero tool exit, timeout, and any
unexpected exception (the output-parse failure path is unreachable because
the modelled parser is total). -/
theorem temp_file_always_deleted (fastq_content : Chars) (output_json : Bool)
    (command : Chars) (args : List Chars) (outcome outcome2 : ProcOutcome) :
    (run_seqkit_stats fastq_content output_json outcome).2 = false ∧
    (run_seqkit_command fastq_content command args outcome2).2 = false :=
  ⟨rfl, rfl⟩

/-- C8: tool_available (validate_seqkit_installation) is a total Boolean
function of the probe outcome: completion yields exactly the test that the
exit code is zero (in particular exit code 1 yields false), and the
timeout and every unexpected exception are caught and yield false. -/
theorem tool_available_boolean (returncode : Int) (stdout stderr : Chars) :
    validate_seqkit_installation (.completed returncode stdout stderr) =
      decide (returncode = 0) ∧
    validate_seqkit_installation (.completed 1 stdout stderr) = false ∧
    validate_seqkit_installation .timedOut = false ∧
    validate_seqkit_installation .unexpectedError = false := by
  refine ⟨?_, rfl, rfl, rfl⟩
  by_cases h : returncode = 0 <;> simp [validate_seqkit_installation, h]

/-- C3: the tabular parser returns the empty mapping when fewer than two
non-blank lines remain, a single flat column-to-value mapping (not wrapped
in a list) when exactly one data row follows the header, and an ordered
list of mappings, one per data row and each built by positionally zipping
the tab-split row with the tab-split header, when two or more data rows
follow. -/
theorem parse_tabular_shape (tabular_text : Chars) :
    ((cleanedTabLines tabular_text).length < 2 →
      parse_seqkit_tabular_output tabular_text = .dict []) ∧
    (∀ h r, cleanedTabLines tabular_text = [h, r] →
      parse_seqkit_tabular_output tabular_text =
        .dict ((splitTab h).zip (splitTab r))) ∧
    (∀ h t, cleanedTabLines tabular_text = h :: t → 2 ≤ t.length →
      parse_seqkit_tabular_output tabular_text =
        .list (t.map (fun line => (splitTab h).zip (splitTab line))) ∧
      (t.map (fun line => (splitTab h).zip (splitTab line))).length = t.length) := by
  refine ⟨?_, ?_, ?_⟩
  · intro hlt
    unfold parse_seqkit_tabular_output
    match hm : cleanedTabLines tabular_text with
    | [] => rfl
    | [_] => rfl
    | a :: b :: t =>
      rw [hm] at hlt
      simp only [List.length_cons] at hlt
      exfalso
      omega
  · intro h r heq
    unfold parse_seqkit_tabular_output
    rw [heq]
    rfl
  · intro h t heq hlen
    unfold parse_seqkit_tabular_output
    rw [heq]
    match t, hlen with
    | a :: b :: t', _ =>
      exact ⟨rfl, by simp⟩

/-- C9: the tabular parser is total (a total function in the model); with
fewer than two kept lines it returns the empty dict, which is distinct
from the empty list value, and each produced row mapping has exactly
min(header length, row length) entries, silently truncating the longer
side by positional zipping. -/
theorem parse_tabular_total_truncation (tabular_text : Chars) :
    ((cleanedTabLines tabular_text).length < 2 →
      parse_seqkit_tabular_output tabular_text = .dict [] ∧
      parse_seqkit_tabular_output tabular_text ≠ .list []) ∧
    (∀ h t, cleanedTabLines tabular_text = h :: t → ∀ line ∈ t,
      ((splitTab h).zip (splitTab line)).length =
        min (splitTab h).length (splitTab line).length) := by
  refine ⟨?_, ?_⟩
  · intro hlt
    have hd : parse_seqkit_tabular_output tabular_text = .dict [] := by
      unfold parse_seqkit_tabular_output
      match hm : cleanedTabLines tabular_text with
      | [] => rfl
      | [_] => rfl
      | a :: b :: t =>
        rw [hm] at hlt
        simp only [List.length_cons] at hlt
        exfalso
        omega
    exact ⟨hd, by rw [hd]; intro hc; cases hc⟩
  · intro h t _ line _
    exact List.length_zip _ _

/-- C7: a single log_operation step from any state with positive capacity
leaves at most capacity-many retained entries; when the append overflows
the capacity exactly the most recent capacity-many entries remain (the
suffix of the appended list, oldest evicted first), and otherwise the
entry is simply appended.  The mutual-exclusion lock of the source makes
the step atomic, which is what the pure state transition models. -/
theorem log_operation_capacity (st : InMemoryLogger) (entry : OperationLog)
    (hcap : 1 ≤ st.max_logs) :
    (log_operation st entry).logs.length ≤ st.max_logs ∧
    (st.max_logs < st.logs.length + 1 →
      (log_operation st entry).logs =
        (st.logs ++ [entry]).drop (st.logs.length + 1 - st.max_logs) ∧
      (log_operation st entry).logs.length = st.max_logs) ∧
    (st.logs.length + 1 ≤ st.max_logs →
      (log_operation st entry).logs = st.logs ++ [entry]) := by
  have hlen : (st.logs ++ [entry]).length = st.logs.length + 1 := by simp
  by_cases h : (st.logs ++ [entry]).length > st.max_logs
  · have hif : (log_operation st entry).logs =
        takeLastPy (st.logs ++ [entry]) st.max_logs := by
      unfold log_operation
      rw [if_pos h]
    have hnz : st.max_logs ≠ 0 := by omega
    have htake : takeLastPy (st.logs ++ [entry]) st.max_logs =
        (st.logs ++ [entry]).drop ((st.logs ++ [entry]).length - st.max_logs) := by
      unfold takeLastPy
      rw [if_neg hnz]
    rw [hlen] at h htake
    refine ⟨?_, fun _ => ⟨?_, ?_⟩, fun hle => absurd hle (by omega)⟩
    · rw [hif, htake, List.length_drop, hlen]
      omega
    · rw [hif, htake]
    · rw [hif, htake, List.length_drop, hlen]
      omega
  · have hif : (log_operation st entry).logs = st.logs ++ [entry] := by
      unfold log_operation
      rw [if_neg h]
    rw [hlen] at h
    refine ⟨?_, fun hgt => absurd hgt (by omega), fun _ => hif⟩
    rw [hif, hlen]
    omega

theorem lexLe_total : ∀ a b : Chars, (lexLe a b || lexLe b a) = true
  | [], b => by cases b <;> simp [lexLe]
  | a :: as, [] => by simp [lexLe]
  | a :: as, b :: bs => by
    rcases lt_trichotomy a b with h | h | h
    · simp [lexLe, h]
    · subst h
      simp only [lexLe, lt_irrefl, if_false]
      exact lexLe_total as bs
    · simp [lexLe, h, lt_asymm h]

theorem lexLe_trans : ∀ a b c : Chars,
    lexLe a b = true → lexLe b c = true → lexLe a c = true
  | [], _, c => by
    intro _ _
    cases c <;> simp [lexLe]
  | a :: as, [], _ => by
    intro h1 _
    simp [lexLe] at h1
  | a :: as, b :: bs, [] => by
    intro _ h2
    simp [lexLe] at h2
  | a :: as, b :: bs, c :: cs => by
    intro h1 h2
    simp only [lexLe] at h1 h2 ⊢
    by_cases hab : a < b
    · by_cases hbc : b < c
      · simp [lt_trans hab hbc]
      · by_cases hcb : c < b
        · simp [hbc, hcb] at h2
        · have hbceq : b = c := le_antisymm (not_lt.1 hcb) (not_lt.1 hbc)
          subst hbceq
          simp [hab]
    · by_cases hba : b < a
      · simp [hab, hba] at h1
      · have haeq : a = b := le_antisymm (not_lt.1 hba) (not_lt.1 hab)
        subst haeq
        simp only [lt_self_iff_false, if_false] at h1
        by_cases hac : a < c
        · simp [hac]
        · by_cases hca : c < a
          · simp [hac, hca] at h2
          · have haceq : a = c := le_antisymm (not_lt.1 hca) (not_lt.1 hac)
            subst haceq
            simp only [lt_self_iff_false, if_false] at h1 h2 ⊢
            exact lexLe_trans as bs cs h1 h2

/-- C10: get_logs applies the operation and success filters first, then
sorts the surviving entries newest first by timestamp (the descending
lexicographic order on the timestamp strings that the Python sort uses),
and only then applies a positive limit k, so the call returns exactly the
first k entries of the sorted filtered list: the k most recent matching
entries.  The sorted list is a permutation of the filtered entries and is
pairwise descending. -/
theorem get_logs_filters_before_limit (st : InMemoryLogger) (k : Int)
    (operation : Option Chars) (success_only : Option Bool) (hk : 1 ≤ k) :
    get_logs st (some k) operation success_only =
      (sortByTimestampDesc (filteredLogs st operation success_only)).take k.toNat ∧
    (sortByTimestampDesc (filteredLogs st operation success_only)).Pairwise tsGe ∧
    (sortByTimestampDesc (filteredLogs st operation success_only)).Perm
      (filteredLogs st operation success_only) := by
  haveI htot : IsTotal OperationLog tsGe := by
    constructor
    intro a b
    have := lexLe_total b.timestamp a.timestamp
    rcases Bool.or_eq_true_iff.1 this with h | h
    · exact Or.inl h
    · exact Or.inr h
  haveI htrans : IsTrans OperationLog tsGe := by
    constructor
    intro a b c h1 h2
    exact lexLe_trans c.timestamp b.timestamp a.timestamp h2 h1
  refine ⟨?_, ?_, ?_⟩
  · have hk0 : k ≠ 0 := by omega
    show (if k ≠ 0 then
        pySliceTo (sortByTimestampDesc (filteredLogs st operation success_only)) k
      else sortByTimestampDesc (filteredLogs st operation success_only)) = _
    rw [if_pos hk0]
    unfold pySliceTo
    rw [if_pos (by omega : (0 : Int) ≤ k)]
  · exact List.sorted_insertionSort tsGe _
  · exact List.perm_insertionSort tsGe _

/-- C1: when the parsed input contains a (unique) record whose identifier
equals sequence_id and whose sequence has length L, extract_subsequence
with 0 <= start < stop <= L returns the single-record fasta written for
the record whose identifier is the id-subseq-start-stop interpolation and
whose sequence is the half-open slice of the original, of length
stop - start; with out-of-range coordinates it returns the
invalid-coordinates error, and with an identifier no record carries it
returns an error, never a truncated result. -/
theorem extract_subsequence_spec (input : List Chars) (sequence_id : Chars)
    (start stop : Int) (target : SeqRecord)
    (hmem : target ∈ parseFasta input) (hid : target.id = sequence_id)
    (huniq : ∀ r ∈ parseFasta input, r.id = sequence_id → r = target) :
    (0 ≤ start → start < stop → stop ≤ (target.seq.length : Int) →
      extract_subsequence input sequence_id start stop =
        .ok (writeFasta
          [⟨sequence_id ++ ("_subseq_" ++ toString start ++ "_" ++ toString stop).data,
            target.description ++
              (" (subsequence " ++ toString start ++ "-" ++ toString stop ++ ")").data,
            (target.seq.drop start.toNat).take (stop.toNat - start.toNat)⟩]) ∧
      ((target.seq.drop start.toNat).take (stop.toNat - start.toNat)).length =
        (stop - start).toNat) ∧
    (start < 0 ∨ (target.seq.length : Int) < stop ∨ stop ≤ start →
      extract_subsequence input sequence_id start stop =
        .error (.invalidCoordinates start stop target.seq.length)) ∧
    (∀ other_id : Chars, (∀ r ∈ parseFasta input, r.id ≠ other_id) →
      ∃ e, extract_subsequence input other_id start stop = .error e) := by
  have hne : (parseFasta input).isEmpty = false := by
    cases hp : parseFasta input with
    | nil => rw [hp] at hmem; simp at hmem
    | cons x xs => rfl
  have hfind : (parseFasta input).find? (fun r => r.id == sequence_id) = some target := by
    apply find_eq_some_of_unique _ _ _ hmem
    · simp [hid]
    · intro b hb hpb
      exact huniq b hb (by simpa using hpb)
  refine ⟨?_, ?_, ?_⟩
  · intro h0 hlt hle
    constructor
    · simp only [extract_subsequence, hne, Bool.false_eq_true, if_false, hfind]
      rw [if_neg (by omega)]
    · rw [List.length_take, List.length_drop]
      omega
  · intro hbad
    simp only [extract_subsequence, hne, Bool.false_eq_true, if_false, hfind]
    rcases hbad with h | h | h
    · rw [if_pos (Or.inl h)]
    · rw [if_pos (Or.inr (Or.inl h))]
    · rw [if_pos (Or.inr (Or.inr h))]
  · intro other_id hnone
    by_cases hp : parseFasta input = []
    · exact ⟨.noRecords, by simp [extract_subsequence, hp]⟩
    · have hne2 : (parseFasta input).isEmpty = false := by
        cases hq : parseFasta input with
        | nil => exact absurd hq hp
        | cons x xs => rfl
      have hfind2 : (parseFasta input).find? (fun r => r.id == other_id) = none := by
        rw [List.find?_eq_none]
        intro r hr
        simpa using hnone r hr
      exact ⟨.idNotFound other_id,
        by simp only [extract_subsequence, hne2, Bool.false_eq_true, if_false, hfind2]⟩

/-- C1 witness: a concrete two-record fasta, extracting the slice from 2
to 5 of the first record, plus the two failure modes at concrete inputs. -/
theorem extract_subsequence_spec_witness :
    ((⟨"seq1".data, "seq1 desc".data, "ACGTACGT".data⟩ : SeqRecord) ∈
        parseFasta [">seq1 desc".data, "ACGTACGT".data, ">seq2".data, "GG".data]) ∧
    extract_subsequence [">seq1 desc".data, "ACGTACGT".data, ">seq2".data, "GG".data]
        "seq1".data 2 5 =
      .ok (writeFasta
        [⟨"seq1".data ++ ("_subseq_" ++ toString (2 : Int) ++ "_" ++ toString (5 : Int)).data,
          "seq1 desc".data ++
            (" (subsequence " ++ toString (2 : Int) ++ "-" ++ toString (5 : Int) ++ ")").data,
          (("ACGTACGT".data).drop (2 : Int).toNat).take ((5 : Int).toNat - (2 : Int).toNat)⟩]) ∧
    extract_subsequence [">seq1 desc".data, "ACGTACGT".data, ">seq2".data, "GG".data]
        "seq1".data 2 20 =
      .error (.invalidCoordinates 2 20 ("ACGTACGT".data).length) ∧
    (∃ e, extract_subsequence [">seq1 desc".data, "ACGTACGT".data, ">seq2".data, "GG".data]
        "missing".data 2 5 = .error e) := by
  have h := extract_subsequence_spec
    [">seq1 desc".data, "ACGTACGT".data, ">seq2".data, "GG".data] "seq1".data 2 5
    ⟨"seq1".data, "seq1 desc".data, "ACGTACGT".data⟩ (by decide) (by decide)
    (by decide)
  have h2 := extract_subsequence_spec
    [">seq1 desc".data, "ACGTACGT".data, ">seq2".data, "GG".data] "seq1".data 2 20
    ⟨"seq1".data, "seq1 desc".data, "ACGTACGT".data⟩ (by decide) (by decide)
    (by decide)
  refine ⟨by decide, (h.1 (by decide) (by decide) (by decide)).1, ?_, ?_⟩
  · exact h2.2.1 (by decide)
  · exact h.2.2 "missing".data (by decide)

theorem writeFasta_header_count (rs : List SeqRecord)
    (h : ∀ r ∈ rs, seqSafe r.seq) :
    (writeFasta rs).countP isHeaderLine = rs.length := by
  induction rs with
  | nil => simp [writeFasta]
  | cons r rest ih =>
    have hsafe : seqSafe r.seq := h r (by simp)
    have hwf : writeFasta (r :: rest) = writeRecord r ++ writeFasta rest := by
      simp [writeFasta]
    rw [hwf, List.countP_append, ih (fun x hx => h x (by simp [hx]))]
    have hrec : (writeRecord r).countP isHeaderLine = 1 := by
      unfold writeRecord
      rw [List.countP_cons_of_pos _ _ (by simp [isHeaderLine])]
      have : (wrap60 r.seq).countP isHeaderLine = 0 := by
        rw [List.countP_eq_zero]
        intro l hl
        simp [wrap60_not_header r.seq hsafe l hl]
      rw [this]
    rw [hrec]
    simp [List.length_cons]
    omega

/-- C4: for a GenBank input from which N records parse,
get_conversion_summary reports record_count N, total_length the sum of the
per-record sequence lengths, and the identifiers in input order, including
the zero-valued summary at N equal 0 without failing; genbank_to_fasta
fails exactly at N equal 0 and otherwise emits a fasta text with exactly N
header lines whose parsed records carry the same identifiers in the same
order (and the same sequences). -/
theorem genbank_conversion_spec (records : List SeqRecord)
    (hsafe : ∀ r ∈ records, seqSafe r.seq)
    (hids : ∀ r ∈ records, r.id ≠ [] ∧ ∀ c ∈ r.id, isWs c = false) :
    get_conversion_summary records =
      ⟨records.length, (records.map (fun r => r.seq.length)).sum,
        records.map (fun r => r.id)⟩ ∧
    (records = [] → genbank_to_fasta records = .error .noRecords) ∧
    (records ≠ [] → ∃ out, genbank_to_fasta records = .ok out ∧
      out.countP isHeaderLine = records.length ∧
      (parseFasta out).map (fun r => r.id) = records.map (fun r => r.id) ∧
      (parseFasta out).map (fun r => r.seq) = records.map (fun r => r.seq) ∧
      (parseFasta out).length = records.length) := by
  refine ⟨?_, ?_, ?_⟩
  · unfold get_conversion_summary
    cases records with
    | nil => simp
    | cons r rest => rfl
  · intro h
    subst h
    rfl
  · intro hne
    have hne' : records.isEmpty = false := by
      cases hq : records with
      | nil => exact absurd hq hne
      | cons x xs => rfl
    refine ⟨writeFasta records, ?_, ?_, ?_, ?_, ?_⟩
    · unfold genbank_to_fasta
      rw [hne']
      rfl
    · exact writeFasta_header_count records hsafe
    · rw [parseFasta_writeFasta records hsafe, List.map_map]
      apply List.map_congr_left
      intro r hr
      exact reparseRecord_id r (hids r hr).1 (hids r hr).2
    · rw [parseFasta_writeFasta records hsafe, List.map_map]
      rfl
    · rw [parseFasta_writeFasta records hsafe, List.length_map]

/-- C4 witness: a concrete two-record conversion. -/
theorem genbank_conversion_spec_witness :
    get_conversion_summary
        [⟨"AB123.1".data, "AB123.1 test organism".data, "acgtacgt".data⟩,
         ⟨"CD456.1".data, "CD456.1 other".data, "gg".data⟩] =
      ⟨2, 10, ["AB123.1".data, "CD456.1".data]⟩ ∧
    (∃ out, genbank_to_fasta
        [⟨"AB123.1".data, "AB123.1 test organism".data, "acgtacgt".data⟩,
         ⟨"CD456.1".data, "CD456.1 other".data, "gg".data⟩] = .ok out ∧
      out.countP isHeaderLine = 2 ∧
      (parseFasta out).map (fun r => r.id) = ["AB123.1".data, "CD456.1".data]) ∧
    genbank_to_fasta ([] : List SeqRecord) = .error .noRecords := by
  have h := genbank_conversion_spec
    [⟨"AB123.1".data, "AB123.1 test organism".data, "acgtacgt".data⟩,
     ⟨"CD456.1".data, "CD456.1 other".data, "gg".data⟩]
    (by decide) (by decide)
  obtain ⟨out, hout, hcount, hid, _, _⟩ := h.2.2 (by decide)
  refine ⟨h.1.trans (by decide), ⟨out, hout, by simpa using hcount, hid.trans (by decide)⟩, ?_⟩
  have h0 := genbank_conversion_spec ([] : List SeqRecord) (by decide) (by decide)
  exact h0.2.1 rfl

/-- C2: on a fasta input whose record sequences use only the unambiguous
nucleotide symbols (either case), applying reverse_complement_fasta twice
succeeds and yields records whose sequence contents equal the original
sequence contents in the original order, while each application appends
_rc to every identifier (so the final identifiers carry _rc twice) and
appends the reverse-complement marker to every description of the records
it writes; the intermediate text carries the reverse-complemented
sequences. -/
theorem reverse_complement_involution (input : List Chars)
    (hne : parseFasta input ≠ [])
    (halpha : ∀ r ∈ parseFasta input, ∀ c ∈ r.seq, c ∈ nucleotideChars) :
    ∃ mid out,
      reverse_complement_fasta input = .ok mid ∧
      reverse_complement_fasta mid = .ok out ∧
      (parseFasta out).map (fun r => r.seq) =
        (parseFasta input).map (fun r => r.seq) ∧
      (parseFasta out).map (fun r => r.id) =
        (parseFasta input).map (fun r => r.id ++ "_rc".data ++ "_rc".data) ∧
      (parseFasta mid).map (fun r => r.id) =
        (parseFasta input).map (fun r => r.id ++ "_rc".data) ∧
      (parseFasta mid).map (fun r => r.seq) =
        (parseFasta input).map (fun r => reverseComplement r.seq) ∧
      (rcRecords (parseFasta input)).map (fun r => r.description) =
        (parseFasta input).map
          (fun r => r.description ++ " (reverse complement)".data) := by
  have hids : ∀ r ∈ parseFasta input, ∀ c ∈ r.id, isWs c = false :=
    parseFasta_id_nonws input
  have hne' : (parseFasta input).isEmpty = false := by
    cases hq : parseFasta input with
    | nil => exact absurd hq hne
    | cons x xs => rfl
  have hsafe1 : ∀ r' ∈ rcRecords (parseFasta input), seqSafe r'.seq := by
    intro r' hr'
    obtain ⟨r, hr, rfl⟩ := List.mem_map.1 hr'
    intro c hc
    exact mem_nucleotide_safe c (reverseComplement_mem r.seq (halpha r hr) c hc)
  have hmid : reverse_complement_fasta input =
      .ok (writeFasta (rcRecords (parseFasta input))) := by
    simp only [reverse_complement_fasta, hne', Bool.false_eq_true, if_false]
  have hparse_mid : parseFasta (writeFasta (rcRecords (parseFasta input))) =
      (rcRecords (parseFasta input)).map reparseRecord :=
    parseFasta_writeFasta _ hsafe1
  have hinner_id : ∀ r ∈ parseFasta input,
      (reparseRecord (rcRecord r)).id = r.id ++ "_rc".data := by
    intro r hr
    exact reparseRecord_id (rcRecord r) (rcRecord_id_ne_nil r)
      (rcRecord_id_nonws r (hids r hr))
  have hmid_ne : parseFasta (writeFasta (rcRecords (parseFasta input))) ≠ [] := by
    rw [hparse_mid]
    intro hcontra
    unfold rcRecords at hcontra
    simp only [List.map_eq_nil_iff] at hcontra
    exact hne hcontra
  have hmid_ne' : (parseFasta (writeFasta (rcRecords (parseFasta input)))).isEmpty
      = false := by
    cases hq : parseFasta (writeFasta (rcRecords (parseFasta input))) with
    | nil => exact absurd hq hmid_ne
    | cons x xs => rfl
  have hout : reverse_complement_fasta (writeFasta (rcRecords (parseFasta input))) =
      .ok (writeFasta (rcRecords
        ((rcRecords (parseFasta input)).map reparseRecord))) := by
    have hmap_ne' : ((rcRecords (parseFasta input)).map reparseRecord).isEmpty
        = false := by
      rw [← hparse_mid]
      exact hmid_ne'
    simp only [reverse_complement_fasta, hparse_mid, hmap_ne',
      Bool.false_eq_true, if_false]
  have hsafe2 : ∀ r'' ∈ rcRecords ((rcRecords (parseFasta input)).map reparseRecord),
      seqSafe r''.seq := by
    intro r'' hr''
    obtain ⟨r', hr', rfl⟩ := List.mem_map.1 hr''
    obtain ⟨r0, hr0, rfl⟩ := List.mem_map.1 hr'
    obtain ⟨r, hr, rfl⟩ := List.mem_map.1 hr0
    intro c hc
    have hseq1 : ∀ c ∈ (reparseRecord (rcRecord r)).seq, c ∈ nucleotideChars := by
      rw [reparseRecord_seq]
      exact reverseComplement_mem r.seq (halpha r hr)
    exact mem_nucleotide_safe c
      (reverseComplement_mem _ hseq1 c hc)
  have hparse_out : parseFasta (writeFasta (rcRecords
      ((rcRecords (parseFasta input)).map reparseRecord))) =
      (rcRecords ((rcRecords (parseFasta input)).map reparseRecord)).map
        reparseRecord :=
    parseFasta_writeFasta _ hsafe2
  refine ⟨writeFasta (rcRecords (parseFasta input)),
    writeFasta (rcRecords ((rcRecords (parseFasta input)).map reparseRecord)),
    hmid, hout, ?_, ?_, ?_, ?_, ?_⟩
  · rw [hparse_out]
    unfold rcRecords
    simp only [List.map_map]
    apply List.map_congr_left
    intro r hr
    simp only [Function.comp]
    rw [reparseRecord_seq]
    show reverseComplement (reparseRecord (rcRecord r)).seq = r.seq
    rw [reparseRecord_seq]
    show reverseComplement (reverseComplement r.seq) = r.seq
    exact reverseComplement_involutive r.seq (halpha r hr)
  · rw [hparse_out]
    unfold rcRecords
    simp only [List.map_map]
    apply List.map_congr_left
    intro r hr
    simp only [Function.comp]
    have hinner := hinner_id r hr
    have houter_ne : (rcRecord (reparseRecord (rcRecord r))).id ≠ [] :=
      rcRecord_id_ne_nil _
    have houter_ws : ∀ c ∈ (rcRecord (reparseRecord (rcRecord r))).id,
        isWs c = false := by
      apply rcRecord_id_nonws
      rw [hinner]
      intro c hc
      rcases List.mem_append.1 hc with h1 | h1
      · exact hids r hr c h1
      · simp only [List.mem_cons, List.not_mem_nil, or_false] at h1
        rcases h1 with rfl | rfl | rfl <;> decide
    rw [reparseRecord_id _ houter_ne houter_ws]
    show (reparseRecord (rcRecord r)).id ++ "_rc".data = _
    rw [hinner]
  · rw [hparse_mid]
    unfold rcRecords
    simp only [List.map_map]
    apply List.map_congr_left
    intro r hr
    simp only [Function.comp]
    exact hinner_id r hr
  · rw [hparse_mid]
    unfold rcRecords
    simp only [List.map_map]
    apply List.map_congr_left
    intro r hr
    simp only [Function.comp]
    rw [reparseRecord_seq]
    rfl
  · unfold rcRecords
    simp only [List.map_map]
    apply List.map_congr_left
    intro r hr
    rfl

/-- C2 witness: the double reverse complement on a concrete one-record
fasta input. -/
theorem reverse_complement_involution_witness :
    parseFasta [">s1 d".data, "ACGT".data] ≠ [] ∧
    (∀ r ∈ parseFasta [">s1 d".data, "ACGT".data], ∀ c ∈ r.seq,
      c ∈ nucleotideChars) ∧
    (∃ mid out,
      reverse_complement_fasta [">s1 d".data, "ACGT".data] = .ok mid ∧
      reverse_complement_fasta mid = .ok out ∧
      (parseFasta out).map (fun r => r.seq) =
        (parseFasta [">s1 d".data, "ACGT".data]).map (fun r => r.seq) ∧
      (parseFasta out).map (fun r => r.id) =
        (parseFasta [">s1 d".data, "ACGT".data]).map
          (fun r => r.id ++ "_rc".data ++ "_rc".data) ∧
      (parseFasta mid).map (fun r => r.id) =
        (parseFasta [">s1 d".data, "ACGT".data]).map
          (fun r => r.id ++ "_rc".data) ∧
      (parseFasta mid).map (fun r => r.seq) =
        (parseFasta [">s1 d".data, "ACGT".data]).map
          (fun r => reverseComplement r.seq) ∧
      (rcRecords (parseFasta [">s1 d".data, "ACGT".data])).map
          (fun r => r.description) =
        (parseFasta [">s1 d".data, "ACGT".data]).map
          (fun r => r.description ++ " (reverse complement)".data)) :=
  ⟨by decide, by decide,
    reverse_complement_involution [">s1 d".data, "ACGT".data] (by decide) (by decide)⟩

/-- C5 counterexample: the claim checks the raw sequence line, but the
source strips the sequence and quality lines before the length comparison
and the alphabet check.  On this input the raw sequence line of the first
record is AC followed by a space: it has the same raw length as its
quality line and contains a space, which is not an IUPAC character, so the
claim as stated demands a ValidationError; the source accepts the input
and returns true. -/
theorem validate_fastq_claim_counterexample :
    validate_fastq_format "@a\nAC \n+\n!! \n@b\nGG\n+\n!!".data = .ok true ∧
    (splitOnChar '\n' (pyStrip "@a\nAC \n+\n!! \n@b\nGG\n+\n!!".data)).length = 8 ∧
    (splitOnChar '\n' (pyStrip "@a\nAC \n+\n!! \n@b\nGG\n+\n!!".data))[1]? =
      some "AC ".data ∧
    (splitOnChar '\n' (pyStrip "@a\nAC \n+\n!! \n@b\nGG\n+\n!!".data))[3]? =
      some "!! ".data ∧
    "AC ".data.length = "!! ".data.length ∧
    ' ' ∈ "AC ".data ∧
    isIUPACChar ' ' = false ∧
    isIUPACChar (Char.toUpper ' ') = false := by
  decide

theorem checkFastqRecord_none_iff (i : Nat) (a b c d : Chars) :
    checkFastqRecord i a b c d = none ↔
      (a.head? = some '@' ∧ c.head? = some '+' ∧
       (pyStrip b).length = (pyStrip d).length ∧
       pyStrip b ≠ [] ∧ ∀ ch ∈ pyStrip b, isIUPACChar ch.toUpper = true) := by
  by_cases h1 : (a.head? == some '@') = true
  · by_cases h2 : (c.head? == some '+') = true
    · by_cases h3 : (pyStrip b).length = (pyStrip d).length
      · by_cases h4 : isIUPACSeq (pyStrip b) = true
        · have hres : checkFastqRecord i a b c d = none := by
            unfold checkFastqRecord
            simp [h1, h2, h3, h4]
          rw [hres]
          apply iff_of_true rfl
          unfold isIUPACSeq at h4
          rw [Bool.and_eq_true] at h4
          refine ⟨by simpa using h1, by simpa using h2, h3, ?_, ?_⟩
          · intro hq
            rw [hq] at h4
            simp at h4
          · have h42 := h4.2
            rw [List.all_eq_true] at h42
            exact h42
        · have h4' : isIUPACSeq (pyStrip b) = false := by simpa using h4
          have hres : checkFastqRecord i a b c d =
              some (.invalidChars (i + 2)) := by
            unfold checkFastqRecord
            simp [h1, h2, h3, h4']
          rw [hres]
          apply iff_of_false (by simp)
          intro hc
          apply h4
          unfold isIUPACSeq
          rw [Bool.and_eq_true]
          constructor
          · cases hq : pyStrip b with
            | nil => exact absurd hq hc.2.2.2.1
            | cons x xs => rfl
          · rw [List.all_eq_true]
            exact hc.2.2.2.2
      · have hres : checkFastqRecord i a b c d =
            some (.lengthMismatch (i + 1)) := by
          unfold checkFastqRecord
          simp [h1, h2, h3]
        rw [hres]
        apply iff_of_false (by simp)
        intro hc
        exact h3 hc.2.2.1
    · have h2' : (c.head? == some '+') = false := by simpa using h2
      have hres : checkFastqRecord i a b c d = some (.badPlusLine (i + 3)) := by
        unfold checkFastqRecord
        simp [h1, h2']
      rw [hres]
      apply iff_of_false (by simp)
      intro hc
      rw [hc.2.1] at h2
      simp at h2
  · have h1' : (a.head? == some '@') = false := by simpa using h1
    have hres : checkFastqRecord i a b c d = some (.badHeader (i + 1)) := by
      unfold checkFastqRecord
      simp [h1']
    rw [hres]
    apply iff_of_false (by simp)
    intro hc
    rw [hc.1] at h1
    simp at h1

theorem exists_mem_of_findSome_eq_some {α β : Type} {f : α → Option β}
    {l : List α} {b : β} (h : l.findSome? f = some b) :
    ∃ a ∈ l, f a = some b := by
  induction l with
  | nil => simp at h
  | cons x t ih =>
    rw [List.findSome?_cons] at h
    cases hx : f x with
    | some v =>
      rw [hx] at h
      exact ⟨x, by simp, by rw [hx]; simpa using h⟩
    | none =>
      rw [hx] at h
      obtain ⟨a, ha, hfa⟩ := ih h
      exact ⟨a, by simp [ha], hfa⟩

/-- C5 (amended): validate_fastq_format succeeds exactly on inputs whose
stripped content splits on newline into a positive multiple of 4 lines
such that, in every 4-line record, the 1st line starts with the at sign,
the 3rd line starts with the plus sign, the whitespace-stripped sequence
and quality lines have equal length, and the stripped sequence line is
non-empty and contains only IUPAC characters case-insensitively (the
stripping of the sequence and quality lines, and the non-emptiness coming
from the regex, are the amendments). -/
theorem validate_fastq_accepts_iff (content : Chars) :
    validate_fastq_format content = .ok true ↔
      (4 ≤ (splitOnChar '\n' (pyStrip content)).length ∧
       (splitOnChar '\n' (pyStrip content)).length % 4 = 0 ∧
       ∀ i a b c d,
         (i, a, b, c, d) ∈ fastqChunks 0 (splitOnChar '\n' (pyStrip content)) →
           a.head? = some '@' ∧ c.head? = some '+' ∧
           (pyStrip b).length = (pyStrip d).length ∧
           pyStrip b ≠ [] ∧ ∀ ch ∈ pyStrip b, isIUPACChar ch.toUpper = true) := by
  unfold validate_fastq_format
  by_cases hemp : (pyStrip content).isEmpty = true
  · rw [if_pos hemp]
    apply iff_of_false (by simp)
    intro hc
    have hnil : pyStrip content = [] := by simpa using hemp
    rw [hnil] at hc
    have : (splitOnChar '\n' ([] : Chars)).length = 1 := rfl
    omega
  · rw [if_neg hemp]
    by_cases h4 : (splitOnChar '\n' (pyStrip content)).length < 4
    · rw [if_pos h4]
      apply iff_of_false (by simp)
      intro hc
      omega
    · rw [if_neg h4]
      by_cases hmod : (splitOnChar '\n' (pyStrip content)).length % 4 ≠ 0
      · rw [if_pos hmod]
        apply iff_of_false (by simp)
        intro hc
        exact hmod hc.2.1
      · rw [if_neg hmod]
        cases hfs : (fastqChunks 0 (splitOnChar '\n' (pyStrip content))).findSome?
            (fun g => checkFastqRecord g.1 g.2.1 g.2.2.1 g.2.2.2.1 g.2.2.2.2) with
        | none =>
          apply iff_of_true rfl
          refine ⟨by omega, by omega, ?_⟩
          intro i a b c d hmem
          have hnone := List.findSome?_eq_none.1 hfs (i, a, b, c, d) hmem
          exact (checkFastqRecord_none_iff i a b c d).1 hnone
        | some e =>
          apply iff_of_false (by simp)
          intro hc
          obtain ⟨g, hg, hcheck⟩ := exists_mem_of_findSome_eq_some hfs
          obtain ⟨i, a, b, c, d⟩ := g
          have hnone := (checkFastqRecord_none_iff i a b c d).2
            (hc.2.2 i a b c d hg)
          rw [hnone] at hcheck
          cases hcheck

/-- C3 witness: one data row gives a flat mapping, two give a list of two
mappings, a lone header line gives the empty result. -/
theorem parse_tabular_shape_witness :
    parse_seqkit_tabular_output "file\tnum_seqs\nin.fastq\t2".data =
      .dict ((splitTab "file\tnum_seqs".data).zip (splitTab "in.fastq\t2".data)) ∧
    (parse_seqkit_tabular_output "h1\th2\na\tb\nc\td".data =
      .list (["a\tb".data, "c\td".data].map
        (fun line => (splitTab "h1\th2".data).zip (splitTab line))) ∧
      (["a\tb".data, "c\td".data].map
        (fun line => (splitTab "h1\th2".data).zip (splitTab line))).length = 2) ∧
    parse_seqkit_tabular_output "onlyheader".data = .dict [] := by
  refine ⟨?_, ?_, ?_⟩
  · exact (parse_tabular_shape "file\tnum_seqs\nin.fastq\t2".data).2.1
      "file\tnum_seqs".data "in.fastq\t2".data (by decide)
  · have h := (parse_tabular_shape "h1\th2\na\tb\nc\td".data).2.2 "h1\th2".data
      ["a\tb".data, "c\td".data] (by decide) (by decide)
    exact ⟨h.1, h.2.trans (by decide)⟩
  · exact (parse_tabular_shape "onlyheader".data).1 (by decide)

/-- C9 witness: a one-line input gives the empty dict and a short data row
zipped against a longer header truncates to the minimum length. -/
theorem parse_tabular_truncation_witness :
    (parse_seqkit_tabular_output "x".data = .dict [] ∧
      parse_seqkit_tabular_output "x".data ≠ .list []) ∧
    ((splitTab "a\tb\tc".data).zip (splitTab "p\tq".data)).length =
      min (splitTab "a\tb\tc".data).length (splitTab "p\tq".data).length := by
  constructor
  · exact (parse_tabular_total_truncation "x".data).1 (by decide)
  · exact (parse_tabular_total_truncation "a\tb\tc\np\tq".data).2
      "a\tb\tc".data ["p\tq".data] (by decide) "p\tq".data (by decide)

/-- C7 witness: appending to a full one-slot logger keeps the length bound. -/
theorem log_operation_capacity_witness :
    (1 : Nat) ≤ 1 ∧
    (log_operation ⟨[⟨"t1".data, "a".data, "e".data, true, none⟩], 1⟩
      ⟨"t2".data, "a".data, "e".data, true, none⟩).logs.length ≤ 1 :=
  ⟨by decide,
    (log_operation_capacity ⟨[⟨"t1".data, "a".data, "e".data, true, none⟩], 1⟩
      ⟨"t2".data, "a".data, "e".data, true, none⟩ (by decide)).1⟩

/-- C10 witness: a limit of 2 on a three-entry logger takes the first two
entries of the sorted filtered list. -/
theorem get_logs_filters_before_limit_witness :
    (1 : Int) ≤ 2 ∧
    get_logs ⟨[⟨"t1".data, "a".data, "e".data, true, none⟩,
               ⟨"t2".data, "a".data, "e".data, false, none⟩,
               ⟨"t3".data, "b".data, "e".data, true, none⟩], 10⟩
        (some 2) none none =
      (sortByTimestampDesc (filteredLogs
        ⟨[⟨"t1".data, "a".data, "e".data, true, none⟩,
          ⟨"t2".data, "a".data, "e".data, false, none⟩,
          ⟨"t3".data, "b".data, "e".data, true, none⟩], 10⟩ none none)).take
        (2 : Int).toNat :=
  ⟨by decide,
    (get_logs_filters_before_limit
      ⟨[⟨"t1".data, "a".data, "e".data, true, none⟩,
        ⟨"t2".data, "a".data, "e".data, false, none⟩,
        ⟨"t3".data, "b".data, "e".data, true, none⟩], 10⟩ 2 none none
      (by decide)).1⟩

end FastxMCP
